import Mathlib

/-!
Verification of the matting-method resolution and filter-graph synthesis engine
of `scripts/animate.py` (character animator pipeline).

The Python source is shallowly embedded below.  Conventions of the embedding:

* Pixel channels are bytes (`Fin 256`), as produced by the image decoder.
* The source compares `math.sqrt` of integer sums of squares.  All sums of
  squares occurring in the program are integers below 2^18, and the correctly
  rounded double-precision square root is strictly monotone and injective on
  those integers, so every comparison of distances in the source is equivalent
  to the corresponding comparison of squared distances; the embedding therefore
  works with exact squared distances (`sqDist`).
* `float('inf')` seeding the running minimum is rendered as `3 * 255 ^ 2 + 1`,
  a value strictly above every possible squared distance between byte colors,
  which makes the two seeds observationally identical.
* The one place where double-precision rounding is observable is
  `int(cap * 1.15)` in the geometry computation.  There the embedding models
  IEEE-754 binary64 arithmetic exactly: `1.15` is the double
  `2589569785738035 / 2^51`, the product with the exact integer `cap` is
  rounded to 53 significant bits with round-to-nearest-even, and `int(...)`
  truncates.  This is bit-exact for every reachable `cap` (caps never exceed
  720, and all intermediate naturals stay far below the 2^64 fuel bound).
* The ratio test `close_count / len(edge_pixels) >= 0.65` divides two exact
  integers in double precision.  For any border shorter than about 2^48 pixels
  the double comparison agrees with the exact rational comparison
  `13 * len ≤ 20 * close`, which is how the embedding states it.
-/

namespace Animate

/-- A byte channel value, as decoded from an 8-bit image. -/
abbrev Byte := Fin 256

/-- An RGB triple `(r, g, b)`. -/
abbrev Color := Byte × Byte × Byte

/-- An RGBA quadruple `(r, g, b, a)`. -/
abbrev Pixel := Byte × Byte × Byte × Byte

/-- Uppercase hexadecimal digit, mirroring Python's `X` format code. -/
def hexDigit (n : ℕ) : Char := Char.ofNat (if n < 10 then 48 + n else 55 + n)

/-- Two-digit uppercase hexadecimal rendering of a byte value, mirroring
Python's `{:02X}` format specifier for values below 256. -/
def hex2 (n : ℕ) : String := String.mk [hexDigit (n / 16), hexDigit (n % 16)]

/-- Embeds the format string `f'0x{r:02X}{g:02X}{b:02X}'` of the source. -/
def hexStr (c : Color) : String := "0x" ++ hex2 c.1.val ++ hex2 c.2.1.val ++ hex2 c.2.2.val

/-- Exact squared Euclidean RGB distance.  The source computes
`math.sqrt((r - cr)**2 + (g - cg)**2 + (b - cb)**2)` and only ever compares
distances; squaring preserves all those comparisons (see the header note). -/
def sqDist (p c : Color) : ℤ :=
  ((p.1.val : ℤ) - (c.1.val : ℤ)) ^ 2 + ((p.2.1.val : ℤ) - (c.2.1.val : ℤ)) ^ 2 +
    ((p.2.2.val : ℤ) - (c.2.2.val : ℤ)) ^ 2

/-- The list comprehension `[(r, g, b) for r, g, b, a in pixels if a > 128]`
of `find_key_color`. -/
def occupied (pixels : List Pixel) : List Color :=
  (pixels.filter fun p => 128 < p.2.2.2.val).map fun p => (p.1, p.2.1, p.2.2.1)

/-- The fixed candidate key-color palette of `find_key_color`, in source order:
cyan, magenta, blue, red, hot pink. -/
def candidates : List Color := [(0, 255, 255), (255, 0, 255), (0, 0, 255), (255, 0, 0), (255, 20, 147)]

/-- One step of the running-minimum loop `if dist < min_dist: min_dist = dist`. -/
def sqMinStep (c : Color) (m : ℤ) (q : Color) : ℤ := min m (sqDist q c)

/-- Inner loop of `find_key_color`: the minimum (squared) distance from the
candidate `c` to any color of `occ`.  The seed stands for `float('inf')`;
it exceeds every possible squared byte-color distance. -/
def minSqDist (c : Color) (occ : List Color) : ℤ :=
  occ.foldl (sqMinStep c) (3 * 255 ^ 2 + 1)

/-- Outer loop of `find_key_color`: keep the first candidate whose minimum
distance strictly exceeds the best so far (`best_dist` starts at `-1`,
`best_color` at a placeholder that is always overwritten). -/
def selectKeyColor (occ : List Color) : Color :=
  (candidates.foldl
      (fun best c => if best.2 < minSqDist c occ then (c, minSqDist c occ) else best)
      (((0, 0, 0) : Color), (-1 : ℤ))).1

/-- Embedding of `find_key_color` (source lines 62-97): scan an RGBA image's
pixels and return the candidate color most distant from any occupied pixel,
with the fixed cyan fallback when no pixel has alpha above 128. -/
def find_key_color (pixels : List Pixel) : Color × String :=
  let occ := occupied pixels
  if occ.isEmpty then (((0, 255, 255) : Color), "0x00FFFF")
  else (selectKeyColor occ, hexStr (selectKeyColor occ))

/-- An opaque RGB image: dimensions plus a pixel lookup, mirroring
`img.load()` indexing `pixels[x, y]`. -/
structure RGBImage where
  width : ℕ
  height : ℕ
  pix : ℕ → ℕ → Color

/-- Border positions in the exact order the source visits them: for each `x`,
the top pixel `(x, 0)` then the bottom pixel `(x, h-1)`; afterwards for each
`y` from 1 to `h-2` (Python `range(1, h - 1)`), the left pixel `(0, y)` then
the right pixel `(w-1, y)`. -/
def edgePositions (w h : ℕ) : List (ℕ × ℕ) :=
  ((List.range w).flatMap fun x => [(x, 0), (x, h - 1)]) ++
    ((List.range' 1 (h - 2)).flatMap fun y => [(0, y), (w - 1, y)])

/-- The `edge_pixels` list of `detect_solid_background`. -/
def edgePixels (img : RGBImage) : List Color :=
  (edgePositions img.width img.height).map fun q => img.pix q.1 q.2

/-- Embedding of `Counter(edge_pixels).most_common(1)[0][0]`.  `Counter`
iterates distinct colors in first-insertion order and `most_common` breaks
count ties in favor of the earlier key; scanning the whole list while
replacing the incumbent only on a strictly larger count selects exactly the
same color (later duplicates of a color never displace it, and a tying
different color never displaces an earlier incumbent). -/
def mostCommon (edge : List Color) : Color :=
  (edge.foldl
      (fun best c => if best.2 < edge.count c then (c, edge.count c) else best)
      (((0, 0, 0) : Color), (0 : ℕ))).1

/-- The `close_count` loop: how many edge pixels lie within Euclidean distance
30 of the dominant color (`dist <= 30` is `sqDist ≤ 900`, see header note). -/
def closeCount (edge : List Color) (dc : Color) : ℕ :=
  (edge.filter fun q => sqDist q dc ≤ 900).length

/-- Embedding of `detect_solid_background` (source lines 100-140) with the
default `tolerance=30` and `min_edge_ratio=0.65`: sample the border pixels,
find the most common exact color, and report it when at least 65% of the
border lies within tolerance of it.  The rational comparison
`13 * len ≤ 20 * close` renders `close_count / len >= 0.65` (header note). -/
def detect_solid_background (img : RGBImage) : Option (Color × String) :=
  let edge := edgePixels img
  if edge.isEmpty then none
  else
    let dc := mostCommon edge
    if 13 * edge.length ≤ 20 * closeCount edge dc then some (dc, hexStr dc) else none

/-- Color-channel mode of a decoded source image (spec data model: opaque RGB
versus RGBA). -/
inductive PixMode
  | RGB
  | RGBA
deriving DecidableEq

/-- A decoded source image as the alpha inspection step sees it. -/
structure AlphaImage where
  mode : PixMode
  pixels : List Pixel

/-- Alpha channel of a pixel. -/
def alphaOf (p : Pixel) : ℕ := p.2.2.2.val

/-- One step of the channel-extrema accumulation. -/
def extremaStep (e : ℕ × ℕ) (q : Pixel) : ℕ × ℕ := (min e.1 (alphaOf q), max e.2 (alphaOf q))

/-- Embedding of `img.getchannel('A').getextrema()`: the minimum and maximum
alpha value over all pixels. -/
def alphaExtrema : List Pixel → ℕ × ℕ
  | [] => (0, 0)
  | p :: ps => ps.foldl extremaStep (alphaOf p, alphaOf p)

/-- Embedding of the alpha inspection (source lines 179-183):
`has_alpha = src.mode == 'RGBA'` and, when RGBA, flat alpha
(`alpha_range[0] == alpha_range[1]`) counts as no real transparency. -/
def hasRealAlpha (img : AlphaImage) : Bool :=
  match img.mode with
  | PixMode.RGBA => (alphaExtrema img.pixels).1 != (alphaExtrema img.pixels).2
  | PixMode.RGB => false

/-- Embedding of the method resolution (source lines 198-215).  `detected` is
the value `detect_solid_background` would return on the image; the source
only consults it in the opaque-character branch, and `detected_bg` stays
`None` on every other path.  Returns the resolved method together with the
surviving `detected_bg`. -/
def resolveMethod (method : String) (mask_path : Option String) (asset_type : String)
    (has_alpha : Bool) (detected : Option (Color × String)) : String × Option (Color × String) :=
  if method = "auto" then
    if mask_path.isSome then ("mask", none)
    else if asset_type = "background" then ("background", none)
    else if has_alpha then ("chromakey", none)
    else
      match detected with
      | some kc => ("chromakey", some kc)
      | none => ("sam3", none)
  else (method, none)

/-- Embedding of the chromakey preparation (source lines 252-269): with a
detected background color the source image is used unmodified and the
detected color becomes the key; otherwise the best key color is synthesized
by `find_key_color` and baked, switching the generation input to the baked
file.  Returns `(gen_image_path, key_color, key_hex)`. -/
def prepareChromakey (image_path : String) (pixels : List Pixel)
    (detected : Option (Color × String)) (baked_path : String) : String × Color × String :=
  match detected with
  | some kc => (image_path, kc.1, kc.2)
  | none =>
    let kc := find_key_color pixels
    (baked_path, kc.1, kc.2)

/-- Embedding of the loop default (source lines 156-157):
`if loop is None: loop = asset_type == 'background'`. -/
def resolveLoop (loop : Option Bool) (asset_type : String) : Bool :=
  loop.getD (asset_type == "background")

/-- Request parameters for the `kling` generation backend (source lines
274-288).  `cfg_scale` is the double `0.5`, which is exactly `1/2`. -/
structure KlingParams where
  prompt : String
  start_image : String
  duration : ℕ
  mode : String
  negative_prompt : String
  cfg_scale : ℚ
  aspect : String
  end_image : Option String

/-- Embedding of the `kling` parameter construction: looping reuses the start
image as `end_image` and switches the mode to `pro`. -/
def klingParams (gen_image_path prompt : String) (duration : ℕ) (loop : Bool) : KlingParams :=
  let base : KlingParams :=
    { prompt := prompt
      start_image := gen_image_path
      duration := duration
      mode := "standard"
      negative_prompt := "blurry, distorted, low quality, watermark"
      cfg_scale := 1 / 2
      aspect := "16:9"
      end_image := none }
  if loop then { base with end_image := some gen_image_path, mode := "pro" } else base

/-- The encoder parameter tail shared by the transparent output paths, as the
spec describes it: alpha-capable pixel format, alternate-reference frames
disabled, fixed bitrate/quality/speed, row-based multithreading, the
alpha-mode stream metadata flag, audio stripped. -/
def alphaEncoderArgs : List String :=
  ["-c:v", "libvpx-vp9", "-pix_fmt", "yuva420p",
   "-auto-alt-ref", "0", "-b:v", "800k", "-crf", "35",
   "-speed", "4", "-row-mt", "1",
   "-metadata:s:v:0", "alpha_mode=1", "-an"]

/-- Embedding of the mask-path encoder invocation (source lines 333-345). -/
def maskFfmpegCmd (generated mask_video output_path : String) (out_w out_h : ℕ) : List String :=
  ["ffmpeg", "-y",
   "-i", generated,
   "-i", mask_video,
   "-filter_complex",
   "[0:v]scale=" ++ toString out_w ++ ":" ++ toString out_h ++ "[vid];[vid][1:v]alphamerge[out]",
   "-map", "[out]",
   "-c:v", "libvpx-vp9", "-pix_fmt", "yuva420p",
   "-auto-alt-ref", "0", "-b:v", "800k", "-crf", "35",
   "-speed", "4", "-row-mt", "1",
   "-metadata:s:v:0", "alpha_mode=1", "-an",
   "-shortest",
   output_path]

/-- Embedding of the chromakey-path encoder invocation (source lines 361-370). -/
def chromakeyFfmpegCmd (generated output_path key_hex : String) (crop_w crop_h : ℕ) : List String :=
  ["ffmpeg", "-y",
   "-i", generated,
   "-vf",
   "scale=" ++ toString crop_w ++ ":" ++ toString crop_h ++ ",chromakey=" ++ key_hex ++
     ":0.15:0.1,format=yuva420p",
   "-c:v", "libvpx-vp9", "-pix_fmt", "yuva420p",
   "-auto-alt-ref", "0", "-b:v", "800k", "-crf", "35",
   "-speed", "4", "-row-mt", "1",
   "-metadata:s:v:0", "alpha_mode=1", "-an",
   output_path]

/-- Embedding of the SAM3-path encoder invocation (source lines 393-406). -/
def sam3FfmpegCmd (generated mask_video_path output_path : String) (crop_w crop_h : ℕ) : List String :=
  let exact_scale := "scale=" ++ toString crop_w ++ ":" ++ toString crop_h
  ["ffmpeg", "-y",
   "-i", generated,
   "-i", mask_video_path,
   "-filter_complex",
   "[0:v]" ++ exact_scale ++ "[vid];[1:v]" ++ exact_scale ++
     ",format=gray,tmix=frames=5,inflate,inflate,inflate[mask];[vid][mask]alphamerge,format=yuva420p[out]",
   "-map", "[out]",
   "-c:v", "libvpx-vp9", "-pix_fmt", "yuva420p",
   "-auto-alt-ref", "0", "-b:v", "800k", "-crf", "35",
   "-speed", "4", "-row-mt", "1",
   "-metadata:s:v:0", "alpha_mode=1", "-an",
   "-shortest",
   output_path]

/-- Bit length of a natural number, with explicit fuel so that the kernel can
evaluate it by structural recursion.  64 units of fuel cover every number
below 2^64; all numbers arising in the geometry computation are below 2^62. -/
def bitLenAux : ℕ → ℕ → ℕ
  | 0, _ => 0
  | fuel + 1, n => if n = 0 then 0 else bitLenAux fuel (n / 2) + 1

/-- Bit length for numbers below 2^64. -/
def bitLen (n : ℕ) : ℕ := bitLenAux 64 n

/-- Exact model of Python's `int(cap * 1.15)` in IEEE-754 binary64 arithmetic:
`1.15` is the double `2589569785738035 / 2^51`; the exact product is rounded
to 53 significant bits (round-to-nearest, ties to even) and then truncated.
Bit-exact for every `cap ≤ 720` (validated against the closed form proved in
the geometry theorems). -/
def truncMul115 (cap : ℕ) : ℕ :=
  let p := cap * 2589569785738035
  let b := bitLen p
  if b ≤ 52 then p / 2 ^ 51
  else
    let s := b - 53
    let q := p / 2 ^ s
    let r := p % 2 ^ s
    let m :=
      if 2 ^ s < 2 * r then q + 1
      else if 2 * r < 2 ^ s then q
      else if q % 2 = 0 then q else q + 1
    m / 2 ^ (104 - b)

/-- Round up to the nearest even number, mirroring `n += n % 2`. -/
def evenUp (n : ℕ) : ℕ := n + n % 2

/-- Output geometry of a run (spec data model `GeometryPlan`). -/
structure GeometryPlan where
  oversized_w : ℕ
  oversized_h : ℕ
  crop_w : ℕ
  crop_h : ℕ

/-- Embedding of the geometry computation (source lines 185-193): cap each
axis at 720, render 15% oversized, make all dimensions even. -/
def planGeometry (src_w src_h : ℕ) : GeometryPlan :=
  let cap_w := min src_w 720
  let cap_h := min src_h 720
  { oversized_w := evenUp (truncMul115 cap_w)
    oversized_h := evenUp (truncMul115 cap_h)
    crop_w := cap_w + cap_w % 2
    crop_h := cap_h + cap_h % 2 }

/-- The capped values at which the double product `cap * 1.15` falls strictly
below the exact rational `23 * cap / 20` although the latter is an integer
(so truncation lands one below the exact value).  All are multiples of 20. -/
def floatDropCaps : List ℕ :=
  [100, 180, 200, 220, 340, 360, 380, 400, 420, 440, 660, 680, 700, 720]

/-- Comparison definition for claim C6, following the specification's words:
every pixel position on the four border lines, corners counted once, each
position exactly once. -/
def specBorderPositions (w h : ℕ) : List (ℕ × ℕ) :=
  (((List.range w).flatMap fun x => (List.range h).map fun y => (x, y)).filter
    fun q => q.1 = 0 ∨ q.1 = w - 1 ∨ q.2 = 0 ∨ q.2 = h - 1)

/-- The border pixels under the specification's corners-once collection. -/
def specBorderPixels (img : RGBImage) : List Color :=
  (specBorderPositions img.width img.height).map fun q => img.pix q.1 q.2

/-- A 1-pixel-wide, 3-pixel-tall image: white, black, white. -/
def stripeImage : RGBImage :=
  ⟨1, 3, fun _ y => if y = 1 then (0, 0, 0) else (255, 255, 255)⟩

/-- A 4x4 image with a uniform white border and a noisy interior. -/
def whiteBorderImage : RGBImage :=
  ⟨4, 4, fun x y =>
    if x = 0 ∨ x = 3 ∨ y = 0 ∨ y = 3 then (255, 255, 255)
    else if x = 1 ∧ y = 1 then (10, 200, 30)
    else if x = 2 ∧ y = 2 then (200, 10, 250)
    else (0, 0, 0)⟩

/-! ### Helper lemmas -/

set_option maxRecDepth 40000 in
/-- Closed form of the double-precision truncation `int(cap * 1.15)` on the
whole reachable range of capped dimensions: exact integer division by 20 of
`23 * cap`, except at the fourteen caps where the rounded double product
falls just below an exact integer. -/
theorem truncMul115_closed :
    ∀ c : ℕ, c < 721 →
      truncMul115 c = 23 * c / 20 - (if c ∈ floatDropCaps then 1 else 0) := by
  decide

set_option maxRecDepth 40000 in
/-- On the reachable range of caps, the oversized dimension dominates the
evened cap. -/
theorem evenUp_trunc_ge : ∀ c : ℕ, c < 721 → evenUp c ≤ evenUp (truncMul115 c) := by
  decide

/-! ### Claim theorems -/

/-- C1 (counterexample): with a user-forced method (`chromakey`) and a mask
path supplied, the resolved method is the forced one, not `mask` — the mask
rule is not checked before honoring a user-forced method. -/
theorem c1_mask_rule_counterexample :
    resolveMethod "chromakey" (some "mask.png") "background" false none = ("chromakey", none) ∧
    (resolveMethod "chromakey" (some "mask.png") "background" false none).1 ≠ "mask" := by
  exact ⟨rfl, by decide⟩

/-- C1 (amended): provided the user-requested method is `auto`, an explicit
mask path resolves to `mask`, before the asset-category rule, so even when
the asset type is `background` and regardless of alpha or detection state. -/
theorem c1_mask_rule_amended (mp asset_type : String) (has_alpha : Bool)
    (detected : Option (Color × String)) :
    (resolveMethod "auto" (some mp) asset_type has_alpha detected).1 = "mask" := by
  rfl

/-- C2 (counterexample): with a user-forced method (`sam3`), asset category
`background`, and no mask path, the resolved method is the forced one, not
`background` — the asset-category rule is not applied before honoring a
user-forced method. -/
theorem c2_background_rule_counterexample :
    resolveMethod "sam3" none "background" true none = ("sam3", none) ∧
    (resolveMethod "sam3" none "background" true none).1 ≠ "background" := by
  exact ⟨rfl, by decide⟩

/-- C2 (amended): provided the user-requested method is `auto`, with no mask
path and asset category `background`, the resolved method is `background`,
regardless of the alpha-inspection result and of the detector outcome. -/
theorem c2_background_rule_amended (has_alpha : Bool) (detected : Option (Color × String)) :
    (resolveMethod "auto" none "background" has_alpha detected).1 = "background" := by
  rfl

/-- C5: for an opaque image (no real alpha) with no mask path, asset category
`character`, and method `auto`: a detected dominant border color resolves to
`chromakey` carrying that detection, the detected color is used directly as
the key color, and the image handed to generation is the unmodified source
(no baking); with no detection the method resolves to `sam3`. -/
theorem c5_opaque_auto (kc : Color × String) (image_path baked_path : String)
    (pixels : List Pixel) :
    resolveMethod "auto" none "character" false (some kc) = ("chromakey", some kc) ∧
    prepareChromakey image_path pixels (some kc) baked_path = (image_path, kc.1, kc.2) ∧
    resolveMethod "auto" none "character" false none = ("sam3", none) := by
  exact ⟨rfl, rfl, rfl⟩

/-- C3 (counterexample): at source 352x352 the capped dimension is 352 and
the double product `352 * 1.15 = 404.8`; the code outputs 404, which is
strictly below the product (`20 * 404 < 23 * 352`), hence not "rounded up",
and in particular not the claimed up-to-even value 406. -/
theorem c3_geometry_counterexample :
    (planGeometry 352 352).oversized_w = 404 ∧ 20 * 404 < 23 * 352 ∧
    (planGeometry 352 352).oversized_w ≠ 406 := by
  decide

/-- C3 (amended): each axis is capped at 720 independently; the oversized
dimension truncates the double product `cap * 1.15` to an integer and then
rounds up to even (so cap 352 gives 404, not 406; the truncation is exactly
`23 * cap / 20`, one less at the fourteen caps of `floatDropCaps` where the
double product falls below the exact integer); the crop dimension rounds the
cap up to even; input 1000x500 yields oversized 828x576 and crop 720x500. -/
theorem c3_geometry_amended (src_w src_h : ℕ) :
    (planGeometry src_w src_h).oversized_w
        = evenUp (23 * min src_w 720 / 20 - (if min src_w 720 ∈ floatDropCaps then 1 else 0)) ∧
    (planGeometry src_w src_h).oversized_h
        = evenUp (23 * min src_h 720 / 20 - (if min src_h 720 ∈ floatDropCaps then 1 else 0)) ∧
    (planGeometry src_w src_h).crop_w = evenUp (min src_w 720) ∧
    (planGeometry src_w src_h).crop_h = evenUp (min src_h 720) ∧
    (planGeometry 1000 500).oversized_w = 828 ∧
    (planGeometry 1000 500).oversized_h = 576 ∧
    (planGeometry 1000 500).crop_w = 720 ∧
    (planGeometry 1000 500).crop_h = 500 := by
  refine ⟨?_, ?_, rfl, rfl, by decide, by decide, by decide, by decide⟩
  · show evenUp (truncMul115 (min src_w 720)) = _
    rw [truncMul115_closed (min src_w 720) (Nat.lt_succ_of_le (min_le_right src_w 720))]
  · show evenUp (truncMul115 (min src_h 720)) = _
    rw [truncMul115_closed (min src_h 720) (Nat.lt_succ_of_le (min_le_right src_h 720))]

/-- C7: for positive source dimensions, all planned dimensions are even and,
on each axis, oversized dimension ≥ crop dimension ≥ min(source, 720) > 0. -/
theorem c7_geometry_invariants (src_w src_h : ℕ) (hw : 0 < src_w) (hh : 0 < src_h) :
    (planGeometry src_w src_h).oversized_w % 2 = 0 ∧
    (planGeometry src_w src_h).oversized_h % 2 = 0 ∧
    (planGeometry src_w src_h).crop_w % 2 = 0 ∧
    (planGeometry src_w src_h).crop_h % 2 = 0 ∧
    (planGeometry src_w src_h).crop_w ≤ (planGeometry src_w src_h).oversized_w ∧
    (planGeometry src_w src_h).crop_h ≤ (planGeometry src_w src_h).oversized_h ∧
    min src_w 720 ≤ (planGeometry src_w src_h).crop_w ∧
    min src_h 720 ≤ (planGeometry src_w src_h).crop_h ∧
    0 < min src_w 720 ∧ 0 < min src_h 720 := by
  have bw : min src_w 720 < 721 := Nat.lt_succ_of_le (min_le_right src_w 720)
  have bh : min src_h 720 < 721 := Nat.lt_succ_of_le (min_le_right src_h 720)
  refine ⟨?_, ?_, ?_, ?_, ?_, ?_, ?_, ?_, ?_, ?_⟩
  · show evenUp (truncMul115 (min src_w 720)) % 2 = 0
    unfold evenUp; omega
  · show evenUp (truncMul115 (min src_h 720)) % 2 = 0
    unfold evenUp; omega
  · show (min src_w 720 + min src_w 720 % 2) % 2 = 0
    omega
  · show (min src_h 720 + min src_h 720 % 2) % 2 = 0
    omega
  · show min src_w 720 + min src_w 720 % 2 ≤ evenUp (truncMul115 (min src_w 720))
    exact evenUp_trunc_ge (min src_w 720) bw
  · show min src_h 720 + min src_h 720 % 2 ≤ evenUp (truncMul115 (min src_h 720))
    exact evenUp_trunc_ge (min src_h 720) bh
  · show min src_w 720 ≤ min src_w 720 + min src_w 720 % 2
    omega
  · show min src_h 720 ≤ min src_h 720 + min src_h 720 % 2
    omega
  · exact lt_min hw (by norm_num)
  · exact lt_min hh (by norm_num)

/-- C7 (witness): the invariants instantiated at source 1000x500. -/
theorem c7_geometry_invariants_witness :
    (planGeometry 1000 500).oversized_w % 2 = 0 ∧
    (planGeometry 1000 500).oversized_h % 2 = 0 ∧
    (planGeometry 1000 500).crop_w % 2 = 0 ∧
    (planGeometry 1000 500).crop_h % 2 = 0 ∧
    (planGeometry 1000 500).crop_w ≤ (planGeometry 1000 500).oversized_w ∧
    (planGeometry 1000 500).crop_h ≤ (planGeometry 1000 500).oversized_h ∧
    min 1000 720 ≤ (planGeometry 1000 500).crop_w ∧
    min 500 720 ≤ (planGeometry 1000 500).crop_h ∧
    0 < min 1000 720 ∧ 0 < min 500 720 :=
  c7_geometry_invariants 1000 500 (by norm_num) (by norm_num)

/-- C9: the three transparency-producing encoder invocations (mask,
chromakey, sam3) factor through the identical encoder parameter list
`alphaEncoderArgs`: vp9 with alpha-capable `yuva420p`, `-auto-alt-ref 0`,
bitrate `800k`, `-crf 35`, `-speed 4`, `-row-mt 1`, the `alpha_mode=1`
stream metadata flag, and `-an`, bit-for-bit the same across the three. -/
theorem c9_common_encoder_args (generated mask_video sam3_mask output_path key_hex : String)
    (out_w out_h crop_w crop_h : ℕ) :
    maskFfmpegCmd generated mask_video output_path out_w out_h =
      ["ffmpeg", "-y", "-i", generated, "-i", mask_video, "-filter_complex",
        "[0:v]scale=" ++ toString out_w ++ ":" ++ toString out_h ++ "[vid];[vid][1:v]alphamerge[out]",
        "-map", "[out]"] ++ alphaEncoderArgs ++ ["-shortest", output_path] ∧
    chromakeyFfmpegCmd generated output_path key_hex crop_w crop_h =
      ["ffmpeg", "-y", "-i", generated, "-vf",
        "scale=" ++ toString crop_w ++ ":" ++ toString crop_h ++ ",chromakey=" ++ key_hex ++
          ":0.15:0.1,format=yuva420p"] ++ alphaEncoderArgs ++ [output_path] ∧
    sam3FfmpegCmd generated sam3_mask output_path crop_w crop_h =
      ["ffmpeg", "-y", "-i", generated, "-i", sam3_mask, "-filter_complex",
        "[0:v]" ++ ("scale=" ++ toString crop_w ++ ":" ++ toString crop_h) ++ "[vid];[1:v]" ++
          ("scale=" ++ toString crop_w ++ ":" ++ toString crop_h) ++
          ",format=gray,tmix=frames=5,inflate,inflate,inflate[mask];[vid][mask]alphamerge,format=yuva420p[out]",
        "-map", "[out]"] ++ alphaEncoderArgs ++ ["-shortest", output_path] := by
  exact ⟨rfl, rfl, rfl⟩

/-- C10: with the loop flag unspecified, looping is enabled exactly for asset
type `background`; a looping kling request reuses the start image as the end
image (switching to `pro` mode), and a non-looping request has no end image. -/
theorem c10_loop_default (asset_type gen_image prompt : String) (duration : ℕ) :
    (resolveLoop none asset_type = true ↔ asset_type = "background") ∧
    resolveLoop none "background" = true ∧
    resolveLoop none "character" = false ∧
    (klingParams gen_image prompt duration (resolveLoop none "background")).end_image
        = some gen_image ∧
    (klingParams gen_image prompt duration (resolveLoop none "background")).mode = "pro" ∧
    (klingParams gen_image prompt duration (resolveLoop none "character")).end_image = none := by
  refine ⟨?_, rfl, rfl, rfl, rfl, rfl⟩
  show ((asset_type == "background") = true ↔ asset_type = "background")
  exact beq_iff_eq

lemma sqDist_nonneg (p c : Color) : 0 ≤ sqDist p c := by
  unfold sqDist
  positivity

lemma sqDist_le_max (p c : Color) : sqDist p c ≤ 3 * 255 ^ 2 := by
  have h1 := p.1.isLt
  have h2 := p.2.1.isLt
  have h3 := p.2.2.isLt
  have h4 := c.1.isLt
  have h5 := c.2.1.isLt
  have h6 := c.2.2.isLt
  have b1 : ((p.1.val : ℤ) - (c.1.val : ℤ)) ^ 2 ≤ 255 ^ 2 := sq_le_sq' (by omega) (by omega)
  have b2 : ((p.2.1.val : ℤ) - (c.2.1.val : ℤ)) ^ 2 ≤ 255 ^ 2 := sq_le_sq' (by omega) (by omega)
  have b3 : ((p.2.2.val : ℤ) - (c.2.2.val : ℤ)) ^ 2 ≤ 255 ^ 2 := sq_le_sq' (by omega) (by omega)
  unfold sqDist
  linarith

lemma sqMin_fold_le_seed (c : Color) : ∀ (l : List Color) (s : ℤ), l.foldl (sqMinStep c) s ≤ s := by
  intro l
  induction l with
  | nil => intro s; exact le_refl s
  | cons q t ih =>
    intro s
    rw [List.foldl_cons]
    exact le_trans (ih _) (min_le_left _ _)

lemma sqMin_fold_le_mem (c : Color) : ∀ (l : List Color) (s : ℤ) (p : Color), p ∈ l →
    l.foldl (sqMinStep c) s ≤ sqDist p c := by
  intro l
  induction l with
  | nil => intro s p hp; exact absurd hp (List.not_mem_nil p)
  | cons q t ih =>
    intro s p hp
    rw [List.foldl_cons]
    rcases List.mem_cons.mp hp with h | h
    · subst h
      exact le_trans (sqMin_fold_le_seed c t _) (min_le_right _ _)
    · exact ih _ p h

lemma sqMin_fold_eq_or (c : Color) : ∀ (l : List Color) (s : ℤ),
    l.foldl (sqMinStep c) s = s ∨ ∃ p ∈ l, l.foldl (sqMinStep c) s = sqDist p c := by
  intro l
  induction l with
  | nil => intro s; exact Or.inl rfl
  | cons q t ih =>
    intro s
    rw [List.foldl_cons]
    rcases ih (sqMinStep c s q) with heq | ⟨p, hp, he⟩
    · rcases le_total s (sqDist q c) with hle | hle
      · left
        rw [heq]
        exact min_eq_left hle
      · right
        exact ⟨q, List.mem_cons_self q t, by rw [heq]; exact min_eq_right hle⟩
    · right
      exact ⟨p, List.mem_cons_of_mem q hp, he⟩

lemma minSqDist_nonneg (c : Color) (occ : List Color) : 0 ≤ minSqDist c occ := by
  have h : ∀ (l : List Color) (s : ℤ), 0 ≤ s → 0 ≤ l.foldl (sqMinStep c) s := by
    intro l
    induction l with
    | nil => intro s hs; exact hs
    | cons q t ih =>
      intro s hs
      rw [List.foldl_cons]
      exact ih _ (le_min hs (sqDist_nonneg q c))
  exact h occ _ (by norm_num)

lemma minSqDist_le (c : Color) {occ : List Color} {p : Color} (hp : p ∈ occ) :
    minSqDist c occ ≤ sqDist p c :=
  sqMin_fold_le_mem c occ _ p hp

lemma minSqDist_attained (c : Color) (occ : List Color) (h : occ ≠ []) :
    ∃ p ∈ occ, minSqDist c occ = sqDist p c := by
  rcases sqMin_fold_eq_or c occ (3 * 255 ^ 2 + 1) with heq | hex
  · obtain ⟨p0, t, rfl⟩ := List.exists_cons_of_ne_nil h
    have hle := sqMin_fold_le_mem c (p0 :: t) (3 * 255 ^ 2 + 1) p0 (List.mem_cons_self p0 t)
    have hub := sqDist_le_max p0 c
    rw [heq] at hle
    linarith
  · exact hex

/-- A strict-improvement scan with a seeded incumbent computes `List.argmax`
of the seed-then-list: the Python pattern `if score > best: best = ...`
keeps the first element on ties, exactly as `argmax` does. -/
lemma foldl_best_eq_argmax {α β : Type} [LinearOrder β] (f : α → β) :
    ∀ (l : List α) (m : α),
      some ((l.foldl (fun best c => if best.2 < f c then (c, f c) else best) (m, f m)).1)
        = (m :: l).argmax f := by
  intro l
  induction l with
  | nil => intro m; rfl
  | cons c t ih =>
    intro m
    by_cases h : f m < f c
    · have hstep : (if (m, f m).2 < f c then (c, f c) else (m, f m)) = (c, f c) := if_pos h
      rw [List.foldl_cons, hstep, ih c]
      rcases hk : (c :: t).argmax f with _ | k
      · exact absurd (List.argmax_eq_none.mp hk) (List.cons_ne_nil c t)
      · have hck : f c ≤ f k :=
          List.le_of_mem_argmax (List.mem_cons_self c t) (Option.mem_def.mpr hk)
        have hmk : f m < f k := lt_of_lt_of_le h hck
        rw [List.argmax_cons, hk]
        simp [hmk]
    · have hstep : (if (m, f m).2 < f c then (c, f c) else (m, f m)) = (m, f m) := if_neg h
      rw [List.foldl_cons, hstep, ih m]
      rcases ht : t.argmax f with _ | k
      · rw [List.argmax_cons f m t, ht, List.argmax_cons f m (c :: t), List.argmax_cons f c t, ht]
        simp [h]
      · rw [List.argmax_cons f m t, ht, List.argmax_cons f m (c :: t), List.argmax_cons f c t, ht]
        by_cases h2 : f c < f k
        · simp [h2]
        · have hmk : ¬f m < f k := not_lt.mpr (le_trans (not_lt.mp h2) (not_lt.mp h))
          simp [h, h2, hmk]

/-- The key-color selection loop is the first-tie-breaking argmax of the
minimum distance over the candidate palette. -/
lemma selectKeyColor_eq_argmax (occ : List Color) :
    some (selectKeyColor occ) = candidates.argmax fun c => minSqDist c occ := by
  have h0 : (-1 : ℤ) < minSqDist ((0, 255, 255) : Color) occ :=
    lt_of_lt_of_le (by norm_num) (minSqDist_nonneg _ _)
  have hstep : (if ((((0, 0, 0) : Color), (-1 : ℤ))).2 < minSqDist ((0, 255, 255) : Color) occ
        then (((0, 255, 255) : Color), minSqDist ((0, 255, 255) : Color) occ)
        else (((0, 0, 0) : Color), (-1 : ℤ)))
      = (((0, 255, 255) : Color), minSqDist ((0, 255, 255) : Color) occ) := if_pos h0
  unfold selectKeyColor candidates
  rw [List.foldl_cons, hstep]
  exact foldl_best_eq_argmax (fun c => minSqDist c occ) _ ((0, 255, 255) : Color)

/-- The dominant-color scan is the first-tie-breaking argmax of the exact
color counts, as `Counter.most_common(1)` computes it. -/
lemma mostCommon_eq_argmax (l : List Color) (hne : l ≠ []) :
    some (mostCommon l) = l.argmax fun c => l.count c := by
  obtain ⟨c, t, h⟩ := List.exists_cons_of_ne_nil hne
  subst h
  have h0 : (0 : ℕ) < (c :: t).count c := by
    rw [List.count_cons_self]
    omega
  have hstep : (if ((((0, 0, 0) : Color), (0 : ℕ))).2 < (c :: t).count c
        then (c, (c :: t).count c) else (((0, 0, 0) : Color), (0 : ℕ)))
      = (c, (c :: t).count c) := if_pos h0
  show some (((c :: t).foldl
      (fun best x => if best.2 < (c :: t).count x then (x, (c :: t).count x) else best)
      (((0, 0, 0) : Color), (0 : ℕ))).1) = _
  rw [List.foldl_cons, hstep]
  exact foldl_best_eq_argmax (fun x => (c :: t).count x) t c

/-- C4: `find_key_color` returns the fixed cyan fallback exactly when no
pixel has alpha above 128; otherwise it returns (with its hex rendering) the
palette candidate maximizing the minimum squared distance — equivalently the
minimum Euclidean distance — to the occupied colors, ties resolved in favor
of the earlier candidate in palette order; `minSqDist` really is the minimum
over the occupied colors; and on an image whose only occupied color is pure
cyan the result is red, not cyan. -/
theorem c4_key_color (pixels : List Pixel) :
    (occupied pixels = [] → find_key_color pixels = (((0, 255, 255) : Color), "0x00FFFF")) ∧
    (occupied pixels ≠ [] →
      ∃ m : Color,
        find_key_color pixels = (m, hexStr m) ∧
        m ∈ candidates ∧
        (∀ c ∈ candidates, minSqDist c (occupied pixels) ≤ minSqDist m (occupied pixels)) ∧
        (∀ c ∈ candidates, minSqDist m (occupied pixels) ≤ minSqDist c (occupied pixels) →
          @List.indexOf Color instBEqOfDecidableEq m candidates
            ≤ @List.indexOf Color instBEqOfDecidableEq c candidates) ∧
        (∀ c : Color, ∃ p ∈ occupied pixels, minSqDist c (occupied pixels) = sqDist p c) ∧
        (∀ c : Color, ∀ p ∈ occupied pixels, minSqDist c (occupied pixels) ≤ sqDist p c)) ∧
    find_key_color [((0, 255, 255, 255) : Pixel)] = (((255, 0, 0) : Color), "0xFF0000") ∧
    ((255, 0, 0) : Color) ≠ ((0, 255, 255) : Color) := by
  refine ⟨?_, ?_, by decide, by decide⟩
  · intro h
    simp [find_key_color, h]
  · intro h
    have hbridge := selectKeyColor_eq_argmax (occupied pixels)
    have hmem : selectKeyColor (occupied pixels)
        ∈ candidates.argmax fun c => minSqDist c (occupied pixels) :=
      Option.mem_def.mpr hbridge.symm
    refine ⟨selectKeyColor (occupied pixels), ?_, List.argmax_mem hmem, ?_, ?_, ?_, ?_⟩
    · simp [find_key_color, h]
    · intro cc hcc
      exact List.le_of_mem_argmax hcc hmem
    · intro cc hcc hle
      exact List.index_of_argmax hmem hcc hle
    · intro cc
      exact minSqDist_attained cc (occupied pixels) h
    · intro cc p hp
      exact minSqDist_le cc hp

/-- C4 (witness): the characterization instantiated on the single-pixel pure
cyan image, whose occupied color list is nonempty. -/
theorem c4_key_color_witness :
    ∃ m : Color,
      find_key_color [((0, 255, 255, 255) : Pixel)] = (m, hexStr m) ∧
      m ∈ candidates ∧
      (∀ c ∈ candidates,
        minSqDist c (occupied [((0, 255, 255, 255) : Pixel)])
          ≤ minSqDist m (occupied [((0, 255, 255, 255) : Pixel)])) ∧
      (∀ c ∈ candidates,
        minSqDist m (occupied [((0, 255, 255, 255) : Pixel)])
            ≤ minSqDist c (occupied [((0, 255, 255, 255) : Pixel)]) →
          @List.indexOf Color instBEqOfDecidableEq m candidates
            ≤ @List.indexOf Color instBEqOfDecidableEq c candidates) ∧
      (∀ c : Color, ∃ p ∈ occupied [((0, 255, 255, 255) : Pixel)],
        minSqDist c (occupied [((0, 255, 255, 255) : Pixel)]) = sqDist p c) ∧
      (∀ c : Color, ∀ p ∈ occupied [((0, 255, 255, 255) : Pixel)],
        minSqDist c (occupied [((0, 255, 255, 255) : Pixel)]) ≤ sqDist p c) :=
  (c4_key_color [((0, 255, 255, 255) : Pixel)]).2.1 (by decide)

lemma extrema_go : ∀ (ps : List Pixel) (e : ℕ × ℕ),
    ((ps.foldl extremaStep e).1 = e.1 ∨ ∃ q ∈ ps, (ps.foldl extremaStep e).1 = alphaOf q) ∧
    ((ps.foldl extremaStep e).2 = e.2 ∨ ∃ q ∈ ps, (ps.foldl extremaStep e).2 = alphaOf q) ∧
    (ps.foldl extremaStep e).1 ≤ e.1 ∧ e.2 ≤ (ps.foldl extremaStep e).2 ∧
    ∀ q ∈ ps, (ps.foldl extremaStep e).1 ≤ alphaOf q ∧ alphaOf q ≤ (ps.foldl extremaStep e).2 := by
  intro ps
  induction ps with
  | nil =>
    intro e
    refine ⟨Or.inl rfl, Or.inl rfl, le_refl _, le_refl _, ?_⟩
    intro q hq
    exact absurd hq (List.not_mem_nil q)
  | cons p t ih =>
    intro e
    rw [List.foldl_cons]
    obtain ⟨ih1, ih2, ih3, ih4, ih5⟩ := ih (extremaStep e p)
    have hs1 : (extremaStep e p).1 = min e.1 (alphaOf p) := rfl
    have hs2 : (extremaStep e p).2 = max e.2 (alphaOf p) := rfl
    refine ⟨?_, ?_, ?_, ?_, ?_⟩
    · rcases ih1 with hh | ⟨q, hq, hh⟩
      · rw [hs1] at hh
        rcases le_total e.1 (alphaOf p) with hle | hle
        · left
          rw [hh, min_eq_left hle]
        · right
          exact ⟨p, List.mem_cons_self p t, by rw [hh, min_eq_right hle]⟩
      · right
        exact ⟨q, List.mem_cons_of_mem p hq, hh⟩
    · rcases ih2 with hh | ⟨q, hq, hh⟩
      · rw [hs2] at hh
        rcases le_total e.2 (alphaOf p) with hle | hle
        · right
          exact ⟨p, List.mem_cons_self p t, by rw [hh, max_eq_right hle]⟩
        · left
          rw [hh, max_eq_left hle]
      · right
        exact ⟨q, List.mem_cons_of_mem p hq, hh⟩
    · exact le_trans ih3 (by rw [hs1]; exact min_le_left _ _)
    · exact le_trans (le_max_left _ _) (hs2 ▸ ih4)
    · intro q hq
      rcases List.mem_cons.mp hq with hh | hh
      · subst hh
        constructor
        · exact le_trans ih3 (by rw [hs1]; exact min_le_right _ _)
        · exact le_trans (le_max_right _ _) (hs2 ▸ ih4)
      · exact ih5 q hh

/-- On a nonempty pixel list the alpha extrema are an attained minimum and an
attained maximum of the alpha channel. -/
lemma alphaExtrema_spec (pixels : List Pixel) (h : pixels ≠ []) :
    (∃ p ∈ pixels, (alphaExtrema pixels).1 = alphaOf p) ∧
    (∃ p ∈ pixels, (alphaExtrema pixels).2 = alphaOf p) ∧
    ∀ p ∈ pixels, (alphaExtrema pixels).1 ≤ alphaOf p ∧ alphaOf p ≤ (alphaExtrema pixels).2 := by
  obtain ⟨p, t, rfl⟩ := List.exists_cons_of_ne_nil h
  have he : alphaExtrema (p :: t) = t.foldl extremaStep (alphaOf p, alphaOf p) := rfl
  obtain ⟨h1, h2, h3, h4, h5⟩ := extrema_go t (alphaOf p, alphaOf p)
  refine ⟨?_, ?_, ?_⟩
  · rcases h1 with hh | ⟨q, hq, hh⟩
    · exact ⟨p, List.mem_cons_self p t, by rw [he]; exact hh⟩
    · exact ⟨q, List.mem_cons_of_mem p hq, by rw [he]; exact hh⟩
  · rcases h2 with hh | ⟨q, hq, hh⟩
    · exact ⟨p, List.mem_cons_self p t, by rw [he]; exact hh⟩
    · exact ⟨q, List.mem_cons_of_mem p hq, by rw [he]; exact hh⟩
  · intro q hq
    rcases List.mem_cons.mp hq with hh | hh
    · subst hh
      exact ⟨by rw [he]; exact h3, by rw [he]; exact h4⟩
    · exact ⟨by rw [he]; exact (h5 q hh).1, by rw [he]; exact (h5 q hh).2⟩

/-- C8: the alpha extrema are the minimum and maximum alpha over all pixels;
an RGBA image reports real transparency exactly when two pixels carry
different alpha values (minimum differs from maximum); uniform alpha 255
reports none, alphas {0, 255} report real transparency; a non-RGBA image
reports none. -/
theorem c8_alpha_inspector (pixels : List Pixel) (hne : pixels ≠ []) :
    ((∃ p ∈ pixels, (alphaExtrema pixels).1 = alphaOf p) ∧
      (∃ p ∈ pixels, (alphaExtrema pixels).2 = alphaOf p) ∧
      ∀ p ∈ pixels, (alphaExtrema pixels).1 ≤ alphaOf p ∧ alphaOf p ≤ (alphaExtrema pixels).2) ∧
    (hasRealAlpha ⟨PixMode.RGBA, pixels⟩ = true ↔
      ∃ p ∈ pixels, ∃ q ∈ pixels, alphaOf p ≠ alphaOf q) ∧
    hasRealAlpha ⟨PixMode.RGB, pixels⟩ = false ∧
    hasRealAlpha ⟨PixMode.RGBA, [((0, 0, 0, 255) : Pixel), ((255, 255, 255, 255) : Pixel)]⟩ = false ∧
    hasRealAlpha ⟨PixMode.RGBA, [((0, 0, 0, 0) : Pixel), ((255, 255, 255, 255) : Pixel)]⟩ = true := by
  obtain ⟨hmin, hmax, hbound⟩ := alphaExtrema_spec pixels hne
  refine ⟨⟨hmin, hmax, hbound⟩, ?_, rfl, by decide, by decide⟩
  have hshow : hasRealAlpha ⟨PixMode.RGBA, pixels⟩
      = ((alphaExtrema pixels).1 != (alphaExtrema pixels).2) := rfl
  rw [hshow, bne_iff_ne, ne_eq]
  constructor
  · intro hne2
    obtain ⟨p, hp, hep⟩ := hmin
    obtain ⟨q, hq, heq⟩ := hmax
    exact ⟨p, hp, q, hq, by rw [← hep, ← heq]; exact hne2⟩
  · rintro ⟨p, hp, q, hq, hpq⟩
    have h1 := hbound p hp
    have h2 := hbound q hq
    omega

/-- C8 (witness): the transparency criterion instantiated on a two-pixel
image with alphas 0 and 255. -/
theorem c8_alpha_inspector_witness :
    hasRealAlpha ⟨PixMode.RGBA, [((0, 0, 0, 0) : Pixel), ((255, 255, 255, 255) : Pixel)]⟩ = true ↔
      ∃ p ∈ [((0, 0, 0, 0) : Pixel), ((255, 255, 255, 255) : Pixel)],
        ∃ q ∈ [((0, 0, 0, 0) : Pixel), ((255, 255, 255, 255) : Pixel)], alphaOf p ≠ alphaOf q :=
  (c8_alpha_inspector [((0, 0, 0, 0) : Pixel), ((255, 255, 255, 255) : Pixel)] (by decide)).2.1

lemma count_topbot (h : ℕ) (hh : 2 ≤ h) (p : ℕ × ℕ) : ∀ w : ℕ,
    (((List.range w).flatMap fun x => [(x, 0), (x, h - 1)]).count p)
      = if p.1 < w ∧ (p.2 = 0 ∨ p.2 = h - 1) then 1 else 0 := by
  obtain ⟨p1, p2⟩ := p
  intro w
  induction w with
  | zero => simp
  | succ n ih =>
    rw [List.range_succ, List.flatMap_append, List.count_append, ih]
    simp only [List.flatMap_cons, List.flatMap_nil, List.append_nil, List.count_cons,
      List.count_nil, beq_iff_eq, Prod.mk.injEq]
    split_ifs <;> omega

lemma count_sides (w : ℕ) (hw : 2 ≤ w) (p : ℕ × ℕ) : ∀ n : ℕ,
    (((List.range' 1 n).flatMap fun y => [(0, y), (w - 1, y)]).count p)
      = if 1 ≤ p.2 ∧ p.2 ≤ n ∧ (p.1 = 0 ∨ p.1 = w - 1) then 1 else 0 := by
  obtain ⟨p1, p2⟩ := p
  intro n
  induction n with
  | zero =>
    simp only [List.range'_zero, List.flatMap_nil, List.count_nil]
    split_ifs <;> omega
  | succ n ih =>
    rw [List.range'_concat, List.flatMap_append, List.count_append, ih]
    simp only [List.flatMap_cons, List.flatMap_nil, List.append_nil, List.count_cons,
      List.count_nil, beq_iff_eq, Prod.mk.injEq]
    split_ifs <;> omega

/-- For non-degenerate images (both dimensions at least 2) the border scan of
the source visits every border position exactly once: corners once, no
interior position, no position twice. -/
lemma edge_count (w h : ℕ) (hw : 2 ≤ w) (hh : 2 ≤ h) (p : ℕ × ℕ) :
    (edgePositions w h).count p
      = if p.1 < w ∧ p.2 < h ∧ (p.1 = 0 ∨ p.1 = w - 1 ∨ p.2 = 0 ∨ p.2 = h - 1)
        then 1 else 0 := by
  rw [edgePositions, List.count_append, count_topbot h hh p w, count_sides w hw p (h - 2)]
  split_ifs <;> omega

lemma edgePositions_ne_nil (w h : ℕ) (hw : 2 ≤ w) (_hh : 2 ≤ h) : edgePositions w h ≠ [] := by
  intro hcontra
  have h0 : ((0, 0) : ℕ × ℕ) ∈ edgePositions w h := by
    unfold edgePositions
    refine List.mem_append_left _ ?_
    exact List.mem_flatMap.mpr ⟨0, List.mem_range.mpr (by omega), by simp⟩
  rw [hcontra] at h0
  exact absurd h0 (List.not_mem_nil _)

/-- With a nonempty border, the detector is the ratio test applied to the
dominant border color. -/
lemma detect_eq_of_ne_nil (img : RGBImage) (hne : edgePixels img ≠ []) :
    detect_solid_background img
      = if 13 * (edgePixels img).length
            ≤ 20 * closeCount (edgePixels img) (mostCommon (edgePixels img))
        then some (mostCommon (edgePixels img), hexStr (mostCommon (edgePixels img)))
        else none := by
  have hb : ¬((edgePixels img).isEmpty = true) := fun hb => hne (List.isEmpty_iff.mp hb)
  show (if (edgePixels img).isEmpty then none
      else
        if 13 * (edgePixels img).length
            ≤ 20 * closeCount (edgePixels img) (mostCommon (edgePixels img))
        then some (mostCommon (edgePixels img), hexStr (mostCommon (edgePixels img)))
        else none : Option (Color × String)) = _
  rw [if_neg hb]

/-- C6 (counterexample): on the 1x3 white/black/white stripe the code visits
the interior pixel twice (its border list is `[white, white, black, black]`),
while the corners-once collection of the claim is `[white, black, white]`;
on the latter the dominant color is white and the 0.65 ratio test passes
(2 of 3 border pixels), so the claimed algorithm detects white — but the
code reports absence. -/
theorem c6_detector_counterexample :
    edgePixels stripeImage
        = [((255, 255, 255) : Color), ((255, 255, 255) : Color), ((0, 0, 0) : Color),
            ((0, 0, 0) : Color)] ∧
    specBorderPixels stripeImage
        = [((255, 255, 255) : Color), ((0, 0, 0) : Color), ((255, 255, 255) : Color)] ∧
    mostCommon (specBorderPixels stripeImage) = ((255, 255, 255) : Color) ∧
    13 * (specBorderPixels stripeImage).length
        ≤ 20 * closeCount (specBorderPixels stripeImage) ((255, 255, 255) : Color) ∧
    detect_solid_background stripeImage = none := by
  exact ⟨by decide, by decide, by decide, by decide, by decide⟩

/-- C6 (amended): for every RGB image with width and height at least 2, the
border scan collects each border pixel exactly once (corners once); the
dominant color is a border color of maximal exact count; the detector reports
it exactly when at least 65% of the border pixels lie within Euclidean
distance 30 of it (`13 * len ≤ 20 * close`), and absence otherwise; an image
with a uniform white border and noisy interior yields white, every border
pixel within tolerance (ratio 1). -/
theorem c6_detector_amended (img : RGBImage) (hw : 2 ≤ img.width) (hh : 2 ≤ img.height) :
    (∀ p : ℕ × ℕ,
      (edgePositions img.width img.height).count p
        = if p.1 < img.width ∧ p.2 < img.height ∧
            (p.1 = 0 ∨ p.1 = img.width - 1 ∨ p.2 = 0 ∨ p.2 = img.height - 1)
          then 1 else 0) ∧
    mostCommon (edgePixels img) ∈ edgePixels img ∧
    (∀ c ∈ edgePixels img,
      (edgePixels img).count c ≤ (edgePixels img).count (mostCommon (edgePixels img))) ∧
    (detect_solid_background img
      = if 13 * (edgePixels img).length
            ≤ 20 * closeCount (edgePixels img) (mostCommon (edgePixels img))
        then some (mostCommon (edgePixels img), hexStr (mostCommon (edgePixels img)))
        else none) ∧
    detect_solid_background whiteBorderImage = some (((255, 255, 255) : Color), "0xFFFFFF") ∧
    closeCount (edgePixels whiteBorderImage) ((255, 255, 255) : Color)
      = (edgePixels whiteBorderImage).length := by
  have hne : edgePixels img ≠ [] := by
    intro hcontra
    exact edgePositions_ne_nil img.width img.height hw hh (List.map_eq_nil_iff.mp hcontra)
  have hbridge := mostCommon_eq_argmax (edgePixels img) hne
  have hmem : mostCommon (edgePixels img)
      ∈ (edgePixels img).argmax fun c => (edgePixels img).count c :=
    Option.mem_def.mpr hbridge.symm
  exact ⟨fun p => edge_count img.width img.height hw hh p, List.argmax_mem hmem,
    fun c hc => List.le_of_mem_argmax hc hmem, detect_eq_of_ne_nil img hne,
    by decide, by decide⟩

/-- C6 (witness): the detector applied to the concrete 4x4 white-border image
through the amended theorem. -/
theorem c6_detector_amended_witness :
    detect_solid_background whiteBorderImage = some (((255, 255, 255) : Color), "0xFFFFFF") :=
  (c6_detector_amended whiteBorderImage (by decide) (by decide)).2.2.2.2.1

end Animate
